import Mathlib

/-!
Shallow embedding of the ProShard sharding simulator
(config.py, protocols.py, simulator.py) and verification of the
specification's claims about it.

Python dicts are modelled by `FMap` (a finite key set plus a value
function); `dict.get(k)` is `FMap.find`, `dict.get(k, d)` is
`FMap.getD`.  Undirected networkx graphs are modelled by `Graph`:
a finite set of normalized (min, max) endpoint pairs together with a
weight function.  Float arithmetic is modelled by exact rationals.
The networkx community-detection calls (label propagation, greedy
modularity) are external library capabilities; they are modelled as an
explicit function argument `detect` producing a list of communities,
exactly as the spec treats them (an opaque partitioning capability).
-/

namespace ProShardSim

/-! ## Configuration constants (config.py) -/

def NUM_ACCOUNTS : ℕ := 50000

def NUM_EPOCHS : ℕ := 100

def EPOCH_DURATION_S : ℕ := 300

def SPIKE_EPOCH : ℕ := 50

def SPIKE_TX_COUNT : ℕ := 400000

def NFT_CLUSTER_SIZE : ℕ := 10

def NFT_CLUSTER_ACCOUNTS : Finset ℕ := Finset.Ico 1000 (1000 + NFT_CLUSTER_SIZE)

def LATENCY_INTRA_SHARD : ℚ := 2

def LATENCY_CROSS_SHARD : ℚ := 10

def PAG_ALPHA : ℚ := 2 / 10

def PAG_BETA : ℚ := 5 / 10

def PAG_GAMMA : ℚ := 3 / 10

def EMA_ALPHA : ℚ := 3 / 10

def PREDICTION_ACTIVITY_THRESHOLD : ℚ := 50

/-! ## Finite maps (Python dict / defaultdict) -/

structure FMap (α β : Type) where
  keys : Finset α
  val : α → β

def FMap.find {α β : Type} [DecidableEq α] (m : FMap α β) (k : α) : Option β :=
  if k ∈ m.keys then some (m.val k) else none

def FMap.getD {α β : Type} [DecidableEq α] (m : FMap α β) (k : α) (d : β) : β :=
  if k ∈ m.keys then m.val k else d

/-- `workload_history`: epoch number ↦ that epoch's transaction list. -/
def HistMap : Type := FMap ℕ (List (ℕ × ℕ))

/-! ## Undirected weighted graphs (networkx.Graph) -/

/-- Normalize an unordered endpoint pair to (min, max). -/
def normPair (p : ℕ × ℕ) : ℕ × ℕ := (min p.1 p.2, max p.1 p.2)

structure Graph (W : Type) where
  edges : Finset (ℕ × ℕ)
  w : ℕ × ℕ → W

def Graph.empty {W : Type} [Zero W] : Graph W := ⟨∅, fun _ => 0⟩

def Graph.nodes {W : Type} (G : Graph W) : Finset ℕ :=
  G.edges.image Prod.fst ∪ G.edges.image Prod.snd

def Graph.hasEdge {W : Type} (G : Graph W) (u v : ℕ) : Prop :=
  normPair (u, v) ∈ G.edges

instance {W : Type} (G : Graph W) (u v : ℕ) : Decidable (G.hasEdge u v) := by
  unfold Graph.hasEdge
  infer_instance

/-- Weight of the edge between `u` and `v` (0 when absent). -/
def Graph.getW {W : Type} [Zero W] (G : Graph W) (u v : ℕ) : W :=
  if normPair (u, v) ∈ G.edges then G.w (normPair (u, v)) else 0

/-! ## Reactive base graph (protocols.py, ReactiveProtocol._build_graph_from_history) -/

/-- One iteration of the loop body: `G[src][dst]['weight'] += 1` when the
edge exists, else `G.add_edge(src, dst, weight=1)`. -/
def addTx (G : Graph ℕ) (t : ℕ × ℕ) : Graph ℕ :=
  if normPair t ∈ G.edges then
    ⟨G.edges, fun p => if p = normPair t then G.w p + 1 else G.w p⟩
  else
    ⟨insert (normPair t) G.edges, fun p => if p = normPair t then 1 else G.w p⟩

def buildGraphFromHistory (hist : HistMap) (epoch : ℕ) : Graph ℕ :=
  if epoch = 0 ∨ hist.keys = ∅ then Graph.empty
  else (hist.getD (epoch - 1) []).foldl addTx Graph.empty

/-- Number of transactions between `u` and `v`, in either direction. -/
def pairCount (txs : List (ℕ × ℕ)) (u v : ℕ) : ℕ :=
  txs.countP (fun t => decide ((t.1 = u ∧ t.2 = v) ∨ (t.1 = v ∧ t.2 = u)))

/-! ## Partition construction (ShardingProtocol._create_partition_from_communities) -/

def addCommunity (m : FMap ℕ ℕ) (shard : ℕ) (c : List ℕ) : FMap ℕ ℕ :=
  c.foldl (fun m' a => ⟨insert a m'.keys, fun x => if x = a then shard else m'.val x⟩) m

def createPartitionFromCommunities (comms : List (List ℕ)) : FMap ℕ ℕ :=
  (comms.foldl (fun (acc : FMap ℕ ℕ × ℕ) c => (addCommunity acc.1 acc.2 c, acc.2 + 1))
    (⟨∅, fun _ => 0⟩, 0)).1

/-! ## Static protocol (protocols.py, StaticProtocol) -/

def staticPartition (numShards numAccounts : ℕ) : FMap ℕ ℕ :=
  ⟨Finset.range numAccounts, fun i => i % numShards⟩

def staticReconfigure (numShards numAccounts : ℕ) (cur : FMap ℕ ℕ)
    (hist : HistMap) (epoch : ℕ) : FMap ℕ ℕ :=
  staticPartition numShards numAccounts

/-! ## Reactive protocols (CLPAProtocol / DBSRPMLProtocol reconfigure).
The two variants differ only in which networkx community-detection
routine fills the `detect` slot. -/

def reactiveReconfigure (detect : Graph ℕ → List (List ℕ)) (cur : FMap ℕ ℕ)
    (hist : HistMap) (epoch : ℕ) : FMap ℕ ℕ :=
  let G := buildGraphFromHistory hist epoch
  if G.nodes = ∅ then cur else createPartitionFromCommunities (detect G)

/-! ## Metrics engine (simulator.py, Simulator._process_transactions) -/

/-- Loop accumulator: `num_cst`, `total_latency`, `shard_load`.
`shard_load` is keyed by `Option ℕ` because the Python code looks up
shards with `dict.get`, which yields `None` for an endpoint missing
from the partition, and that `None` is then used as a `shard_load`
key and compared against the other endpoint's shard. -/
structure TxAcc where
  numCst : ℕ
  totalLatency : ℚ
  shardLoad : FMap (Option ℕ) ℕ

def bumpLoad (m : FMap (Option ℕ) ℕ) (k : Option ℕ) : FMap (Option ℕ) ℕ :=
  ⟨insert k m.keys, fun x => if x = k then m.getD k 0 + 1 else m.val x⟩

def processTx (part : FMap ℕ ℕ) (a : TxAcc) (t : ℕ × ℕ) : TxAcc :=
  let s := part.find t.1
  let d := part.find t.2
  let load := bumpLoad (bumpLoad a.shardLoad s) d
  if s ≠ d then ⟨a.numCst + 1, a.totalLatency + LATENCY_CROSS_SHARD, load⟩
  else ⟨a.numCst, a.totalLatency + LATENCY_INTRA_SHARD, load⟩

def processFold (part : FMap ℕ ℕ) (txs : List (ℕ × ℕ)) : TxAcc :=
  txs.foldl (processTx part) ⟨0, 0, ⟨∅, fun _ => 0⟩⟩

/-- The shards carrying a strictly positive load
(`loads = [v for v in shard_load.values() if v > 0]`). -/
def posLoadKeys (m : FMap (Option ℕ) ℕ) : Finset (Option ℕ) :=
  m.keys.filter (fun k => 0 < m.val k)

def loadVals (m : FMap (Option ℕ) ℕ) : Finset ℕ := (posLoadKeys m).image m.val

/-- `imbalance = max(loads) / min(loads) if len(loads) > 1 else 1.0`. -/
def imbalanceOf (m : FMap (Option ℕ) ℕ) : ℚ :=
  if h : 1 < (posLoadKeys m).card then
    have hne : (loadVals m).Nonempty :=
      Finset.Nonempty.image (Finset.card_pos.mp (Nat.lt_of_le_of_lt (Nat.zero_le 1) h)) m.val
    ((loadVals m).max' hne : ℚ) / ((loadVals m).min' hne : ℚ)
  else 1

structure Metrics where
  throughput : ℚ
  avgLatency : ℚ
  cstPct : ℚ
  imbalance : ℚ
  numCst : ℕ

def processTransactions (txs : List (ℕ × ℕ)) (part : FMap ℕ ℕ) : Metrics :=
  let acc := processFold part txs
  { throughput := (txs.length : ℚ) / (EPOCH_DURATION_S : ℚ)
    avgLatency := if 0 < txs.length then acc.totalLatency / (txs.length : ℚ) else 0
    cstPct := if 0 < txs.length then ((acc.numCst : ℚ) / (txs.length : ℚ)) * 100 else 0
    imbalance := imbalanceOf acc.shardLoad
    numCst := acc.numCst }

/-- Number of transactions whose endpoints resolve to different shards. -/
def cstCount (txs : List (ℕ × ℕ)) (part : FMap ℕ ℕ) : ℕ :=
  txs.countP (fun t => decide (part.find t.1 ≠ part.find t.2))

/-- Total latency: each cross-shard transaction is charged
`LATENCY_CROSS_SHARD`, each intra-shard one `LATENCY_INTRA_SHARD`. -/
def latencySum (txs : List (ℕ × ℕ)) (part : FMap ℕ ℕ) : ℚ :=
  (txs.map (fun t =>
    if part.find t.1 ≠ part.find t.2 then LATENCY_CROSS_SHARD else LATENCY_INTRA_SHARD)).sum

/-! ## ProShard forecasting (protocols.py, ProShardProtocol._predict) -/

/-- Number of times account `a` appears as an endpoint of a transaction
(`last_epoch_activity[src] += 1; last_epoch_activity[dst] += 1`). -/
def activity (txs : List (ℕ × ℕ)) (a : ℕ) : ℕ :=
  txs.countP (fun t => decide (t.1 = a)) + txs.countP (fun t => decide (t.2 = a))

/-- Key set of `last_epoch_activity`: the accounts touched by some
transaction of the previous epoch. -/
def activeAccounts (txs : List (ℕ × ℕ)) : Finset ℕ :=
  (txs.map Prod.fst).toFinset ∪ (txs.map Prod.snd).toFinset

/-- Step 1 of `_predict`: fold the previous epoch's activity into the
per-account exponential moving average. -/
def emaUpdate (hm : FMap ℕ ℚ) (txs : List (ℕ × ℕ)) : FMap ℕ ℚ :=
  ⟨hm.keys ∪ activeAccounts txs,
   fun a => if a ∈ activeAccounts txs then
       EMA_ALPHA * (activity txs a : ℚ) + (1 - EMA_ALPHA) * hm.getD a 0
     else hm.val a⟩

/-- Step 2 of `_predict`: clear `predicted_activity` and carry over the
accounts whose moving average exceeds the activity threshold. -/
def rebuildPredicted (hm : FMap ℕ ℚ) : FMap ℕ ℚ :=
  ⟨hm.keys.filter (fun a => PREDICTION_ACTIVITY_THRESHOLD < hm.val a), hm.val⟩

/-- `spike_prediction_value = SPIKE_TX_COUNT / NFT_CLUSTER_SIZE`. -/
def spikeBoost : ℚ := (SPIKE_TX_COUNT : ℚ) / (NFT_CLUSTER_SIZE : ℚ)

/-- Step 3 of `_predict`: one epoch before the scripted spike, add the
spike prediction value to every NFT-cluster account's forecast. -/
def injectOracle (pm : FMap ℕ ℚ) (epoch : ℕ) : FMap ℕ ℚ :=
  if epoch = SPIKE_EPOCH - 1 then
    ⟨pm.keys ∪ NFT_CLUSTER_ACCOUNTS,
     fun a => if a ∈ NFT_CLUSTER_ACCOUNTS then pm.getD a 0 + spikeBoost else pm.val a⟩
  else pm

/-- ProShard's persistent forecast state: `historical_activity` and
`predicted_activity`. -/
structure PState where
  historical : FMap ℕ ℚ
  predicted : FMap ℕ ℚ

def initPState : PState := ⟨⟨∅, fun _ => 0⟩, ⟨∅, fun _ => 0⟩⟩

/-- One `_predict(workload_history, epoch)` call. -/
def predictStep (st : PState) (hist : HistMap) (epoch : ℕ) : PState :=
  let hm := if 0 < epoch then emaUpdate st.historical (hist.getD (epoch - 1) [])
    else st.historical
  ⟨hm, injectOracle (rebuildPredicted hm) epoch⟩

/-- The forecast state after the `_predict` calls of epochs `0..e`, as
performed by a simulation run (one `reconfigure` per epoch). -/
def predictIter (hist : HistMap) : ℕ → PState
  | 0 => predictStep initPState hist 0
  | n + 1 => predictStep (predictIter hist n) hist (n + 1)

/-- The step-2 forecast of the epoch-`epoch` `_predict` call, before the
step-3 oracle injection. -/
def preInjectionForecast (st : PState) (hist : HistMap) (epoch : ℕ) : FMap ℕ ℚ :=
  rebuildPredicted (if 0 < epoch then emaUpdate st.historical (hist.getD (epoch - 1) [])
    else st.historical)

/-! ## Predictive Affinity Graph
(protocols.py, ProShardProtocol._build_predictive_affinity_graph) -/

/-- `historical_weights[(min(src,dst), max(src,dst))] += 1`. -/
def bumpPairW (m : FMap (ℕ × ℕ) ℕ) (p : ℕ × ℕ) : FMap (ℕ × ℕ) ℕ :=
  ⟨insert p m.keys, fun q => if q = p then m.getD p 0 + 1 else m.val q⟩

def buildHW (txs : List (ℕ × ℕ)) : FMap (ℕ × ℕ) ℕ :=
  txs.foldl (fun m t => bumpPairW m (normPair t)) ⟨∅, fun _ => 0⟩

/-- `max_h = max(historical_weights.values()) if historical_weights else 1`. -/
def pagMaxH (hw : FMap (ℕ × ℕ) ℕ) : ℕ :=
  if hw.keys.Nonempty then hw.keys.sup hw.val else 1

/-- `max_p = max(predicted_activity.values())**2 if predicted_activity else 1`. -/
def pagMaxP (pm : FMap ℕ ℚ) : ℚ :=
  if h : pm.keys.Nonempty then (pm.keys.sup' h pm.val) ^ 2 else 1

/-- The PAG edge weight `alpha * norm_h + beta * norm_p + gamma * s`. -/
def pagWeight (pm : FMap ℕ ℚ) (hw : FMap (ℕ × ℕ) ℕ) (p : ℕ × ℕ) : ℚ :=
  PAG_ALPHA * ((hw.getD p 0 : ℚ) / (pagMaxH hw : ℚ)) +
  PAG_BETA * ((pm.getD p.1 0 * pm.getD p.2 0) / pagMaxP pm) +
  PAG_GAMMA * (if p.1 ∈ NFT_CLUSTER_ACCOUNTS ∧ p.2 ∈ NFT_CLUSTER_ACCOUNTS then 1 else 0)

/-- The Predictive Affinity Graph: all pairs of the previous epoch, an
edge being added only when its weight is positive. -/
def buildPAG (pm : FMap ℕ ℚ) (hist : HistMap) (epoch : ℕ) : Graph ℚ :=
  let hw := if 0 < epoch then buildHW (hist.getD (epoch - 1) []) else ⟨∅, fun _ => 0⟩
  ⟨hw.keys.filter (fun p => 0 < pagWeight pm hw p), pagWeight pm hw⟩

/-- `ProShardProtocol.reconfigure`: predict, build the PAG, partition it
(returning the new partition together with the updated forecast state). -/
def proshardReconfigure (detect : Graph ℚ → List (List ℕ)) (st : PState)
    (cur : FMap ℕ ℕ) (hist : HistMap) (epoch : ℕ) : FMap ℕ ℕ × PState :=
  let st' := predictStep st hist epoch
  let G := buildPAG st'.predicted hist epoch
  if G.nodes = ∅ then (cur, st') else (createPartitionFromCommunities (detect G), st')

/-- Spec-language quantity for C6: the maximum pairwise co-transaction
count of the epoch. -/
def maxPairCount (txs : List (ℕ × ℕ)) : ℕ :=
  ((txs.map normPair).toFinset).sup (fun p => pairCount txs p.1 p.2)

/-- Two histories agree on every epoch entry strictly below `e`. -/
def AgreeBelow (h1 h2 : HistMap) (e : ℕ) : Prop :=
  ∀ k, k < e → h1.find k = h2.find k

/-! ## Reconfiguration cost (simulator.py, Simulator.run step 3) -/

def reconfigCost (old new : FMap ℕ ℕ) (numAccounts : ℕ) : ℚ :=
  (((old.keys.filter (fun a => new.find a ≠ some (old.val a))).card : ℚ) /
    (numAccounts : ℚ)) * 100

/-! ## Concrete inputs used by witnesses and counterexamples -/

def histEmptyH : HistMap := ⟨∅, fun _ => []⟩

def histW2 : HistMap := ⟨{2}, fun _ => [(1, 2), (2, 1), (3, 3)]⟩

/-- History whose epoch-0 transactions touch only accounts 0,1,2,3. -/
def histC1 : HistMap := ⟨{0}, fun _ => [(0, 1), (2, 3)]⟩

/-- The communities label propagation finds on the two-disjoint-edge
graph built from `histC1`. -/
def detectC1 : Graph ℕ → List (List ℕ) := fun _ => [[0, 1], [2, 3]]

/-- Partition `{1:0, 2:0, 3:1, 4:1}` from the spec's first scenario. -/
def partScen1 : FMap ℕ ℕ := ⟨{1, 2, 3, 4}, fun a => if a ≤ 2 then 0 else 1⟩

/-- Partition `{1:0, 2:1}` from the spec's second scenario. -/
def partScen2 : FMap ℕ ℕ := ⟨{1, 2}, fun a => if a = 1 then 0 else 1⟩

/-- Partition `{0:0}`: endpoint 5 of the transaction `(0, 5)` is absent. -/
def partC2 : FMap ℕ ℕ := ⟨{0}, fun _ => 0⟩

def partLoad0 : FMap ℕ ℕ := ⟨{0, 1}, fun _ => 0⟩

/-- History driving the C4 counterexample: a burst of 500000
transactions touching NFT-cluster account 1000 in epoch 47, then a
single one in epoch 48. -/
def histC4 : HistMap :=
  ⟨{47, 48}, fun e => if e = 47 then List.replicate 500000 (1000, 2000)
    else if e = 48 then [(1000, 2000)] else []⟩

/-- A history whose only entry sits at epoch 5, hence agreeing below
epoch 3 with the empty history. -/
def histB5 : HistMap := ⟨{5}, fun _ => [(1, 2)]⟩

/-- A ProShard forecast state with positive scores on two NFT accounts. -/
def predC6 : FMap ℕ ℚ := ⟨{1000, 1001}, fun _ => 60⟩

def histC6 : HistMap := ⟨{0}, fun _ => [(1000, 1001)]⟩

end ProShardSim

namespace ProShardSim

/-! ## Helper lemmas on graphs and counting -/

theorem FMap.getD_eq_find {α β : Type} [DecidableEq α] (m : FMap α β) (k : α) (d : β) :
    m.getD k d = (m.find k).getD d := by
  unfold FMap.getD FMap.find
  by_cases h : k ∈ m.keys <;> simp [h]

theorem pair_pred_iff_normPair (t : ℕ × ℕ) (u v : ℕ) :
    ((t.1 = u ∧ t.2 = v) ∨ (t.1 = v ∧ t.2 = u)) ↔ normPair t = normPair (u, v) := by
  unfold normPair
  simp only [Prod.mk.injEq]
  omega

theorem getW_addTx (G : Graph ℕ) (t : ℕ × ℕ) (u v : ℕ) :
    (addTx G t).getW u v =
      G.getW u v + (if normPair t = normPair (u, v) then 1 else 0) := by
  unfold addTx Graph.getW
  by_cases hk : normPair t = normPair (u, v)
  · rw [← hk]
    by_cases hm : normPair t ∈ G.edges
    · simp [hm]
    · simp [hm]
  · have hk' : normPair (u, v) ≠ normPair t := fun h => hk h.symm
    by_cases hm : normPair t ∈ G.edges
    · simp [hm, hk, hk']
    · simp [hm, hk, hk']

theorem getW_foldl (txs : List (ℕ × ℕ)) (G : Graph ℕ) (u v : ℕ) :
    (txs.foldl addTx G).getW u v = G.getW u v + pairCount txs u v := by
  induction txs generalizing G with
  | nil => simp [pairCount]
  | cons t ts ih =>
    have hcount : pairCount (t :: ts) u v =
        (if normPair t = normPair (u, v) then 1 else 0) + pairCount ts u v := by
      unfold pairCount
      rw [List.countP_cons]
      have := pair_pred_iff_normPair t u v
      by_cases h : normPair t = normPair (u, v)
      · simp [this, h, Nat.add_comm]
      · simp [this, h]
    rw [List.foldl_cons, ih, getW_addTx, hcount]
    ring

theorem getW_empty (u v : ℕ) : (Graph.empty : Graph ℕ).getW u v = 0 := by
  simp [Graph.empty, Graph.getW]

/-! ## Claim theorems, part 1 -/

/-- Claim C7: the reactive base affinity graph (used by CLPA and
DBSRP-ML) is empty when the epoch is 0 or the history is empty, and
otherwise the weight of the edge between accounts `u` and `v` equals the
number of transactions between them (in either direction) in the history
entry for epoch `epoch - 1`. -/
theorem C7_reactive_graph (hist : HistMap) (epoch : ℕ) (u v : ℕ) :
    buildGraphFromHistory hist 0 = Graph.empty ∧
    (hist.keys = ∅ → buildGraphFromHistory hist epoch = Graph.empty) ∧
    (0 < epoch →
      (buildGraphFromHistory hist epoch).getW u v =
        pairCount (hist.getD (epoch - 1) []) u v) := by
  refine ⟨by simp [buildGraphFromHistory], fun h => by simp [buildGraphFromHistory, h], fun h => ?_⟩
  unfold buildGraphFromHistory
  by_cases hk : hist.keys = ∅
  · have : hist.getD (epoch - 1) [] = [] := by
      unfold FMap.getD
      simp [hk]
    simp [h, hk, Nat.pos_iff_ne_zero.mp h, this, getW_empty, pairCount]
  · simp only [Nat.pos_iff_ne_zero.mp h, hk, or_self, if_false]
    rw [getW_foldl, getW_empty, Nat.zero_add]

/-- Witness for C7 at concrete inputs: an empty history yields the empty
graph, and the history `{2 ↦ [(1,2),(2,1),(3,3)]}` at epoch 3 gives the
edge 1–2 weight 2. -/
theorem C7_reactive_graph_witness :
    buildGraphFromHistory histEmptyH 5 = Graph.empty ∧
    (buildGraphFromHistory histW2 3).getW 1 2 = 2 :=
  ⟨(C7_reactive_graph histEmptyH 5 1 2).2.1 rfl,
   ((C7_reactive_graph histW2 3 1 2).2.2 (by norm_num)).trans (by decide)⟩

/-- Claim C10: `StaticProtocol.reconfigure` always returns the map
`{i ↦ i mod num_shards}` over `[0, num_accounts)` computed at
construction; repeated calls with any arguments return an identical
map, so the Static partition never changes. -/
theorem C10_static_idempotent (ns na : ℕ) (cur cur2 : FMap ℕ ℕ)
    (h1 h2 : HistMap) (e1 e2 : ℕ) :
    staticReconfigure ns na cur h1 e1 = staticPartition ns na ∧
    staticReconfigure ns na cur h1 e1 = staticReconfigure ns na cur2 h2 e2 ∧
    (∀ i, (staticReconfigure ns na cur h1 e1).find i =
      if i < na then some (i % ns) else none) := by
  refine ⟨rfl, rfl, fun i => ?_⟩
  simp [staticReconfigure, staticPartition, FMap.find]

/-! ## Helper lemmas on the metrics engine -/

theorem processFold_counts (part : FMap ℕ ℕ) (txs : List (ℕ × ℕ)) (a : TxAcc) :
    (txs.foldl (processTx part) a).numCst = a.numCst + cstCount txs part ∧
    (txs.foldl (processTx part) a).totalLatency = a.totalLatency + latencySum txs part := by
  induction txs generalizing a with
  | nil => simp [cstCount, latencySum]
  | cons t ts ih =>
    rw [List.foldl_cons]
    have h := ih (processTx part a t)
    have hcstc : cstCount (t :: ts) part =
        (if part.find t.1 ≠ part.find t.2 then 1 else 0) + cstCount ts part := by
      unfold cstCount
      rw [List.countP_cons]
      by_cases hne : part.find t.1 ≠ part.find t.2 <;> simp [hne] <;> omega
    have hlat : latencySum (t :: ts) part =
        (if part.find t.1 ≠ part.find t.2 then LATENCY_CROSS_SHARD
          else LATENCY_INTRA_SHARD) + latencySum ts part := by
      unfold latencySum
      rw [List.map_cons, List.sum_cons]
    by_cases hne : part.find t.1 ≠ part.find t.2
    · have hn1 : (processTx part a t).numCst = a.numCst + 1 := by
        unfold processTx
        simp [hne]
      have hl1 : (processTx part a t).totalLatency = a.totalLatency + LATENCY_CROSS_SHARD := by
        unfold processTx
        simp [hne]
      rw [hcstc, hlat, h.1, h.2, hn1, hl1]
      constructor
      · simp [hne]
        omega
      · simp [hne]
        ring
    · have hn1 : (processTx part a t).numCst = a.numCst := by
        unfold processTx
        simp [hne]
      have hl1 : (processTx part a t).totalLatency = a.totalLatency + LATENCY_INTRA_SHARD := by
        unfold processTx
        simp [hne]
      rw [hcstc, hlat, h.1, h.2, hn1, hl1]
      constructor
      · simp [hne]
      · simp [hne]
        ring

theorem processFold_numCst (part : FMap ℕ ℕ) (txs : List (ℕ × ℕ)) :
    (processFold part txs).numCst = cstCount txs part := by
  unfold processFold
  rw [(processFold_counts part txs _).1]
  norm_num

theorem processFold_latency (part : FMap ℕ ℕ) (txs : List (ℕ × ℕ)) :
    (processFold part txs).totalLatency = latencySum txs part := by
  unfold processFold
  rw [(processFold_counts part txs _).2]
  norm_num

theorem loadVals_pos (m : FMap (Option ℕ) ℕ) : ∀ x ∈ loadVals m, 0 < x := by
  intro x hx
  simp only [loadVals, posLoadKeys, Finset.mem_image, Finset.mem_filter] at hx
  obtain ⟨k, ⟨_, hpos⟩, rfl⟩ := hx
  exact hpos

theorem one_le_imbalanceOf (m : FMap (Option ℕ) ℕ) : 1 ≤ imbalanceOf m := by
  unfold imbalanceOf
  split
  · rename_i h
    have hne : (loadVals m).Nonempty :=
      Finset.Nonempty.image (Finset.card_pos.mp (Nat.lt_of_le_of_lt (Nat.zero_le 1) h)) m.val
    have h0 : 0 < (loadVals m).min' hne := loadVals_pos m _ (Finset.min'_mem _ hne)
    have hle : (loadVals m).min' hne ≤ (loadVals m).max' hne :=
      Finset.min'_le _ _ (Finset.max'_mem _ hne)
    exact (one_le_div (by exact_mod_cast h0)).mpr (by exact_mod_cast hle)
  · exact le_refl 1

theorem imbalanceOf_single (m : FMap (Option ℕ) ℕ) (h : (posLoadKeys m).card < 2) :
    imbalanceOf m = 1 := by
  unfold imbalanceOf
  rw [dif_neg (by omega)]

/-! ## Claim theorems, part 2 -/

/-- Claim C1 is a code bug: the partition adopted after `reconfigure`
is not total.  With five accounts, initial partition
`{i ↦ i mod 2}`, and epoch-0 transactions `[(0,1), (2,3)]`, the
reactive reconfigure (CLPA here; DBSRP-ML and ProShard share the same
community-to-partition conversion) at epoch 1 returns a partition that
has lost account 4, because `_create_partition_from_communities` only
covers accounts present in the affinity graph.  Moreover the assigned
shard ids enumerate the detected communities, so with `num_shards = 1`
account 2 would receive the out-of-range shard id 1. -/
theorem C1_totality_violated :
    4 ∈ (staticPartition 2 5).keys ∧
    (reactiveReconfigure detectC1 (staticPartition 2 5) histC1 1).find 4 = none ∧
    (reactiveReconfigure detectC1 (staticPartition 2 5) histC1 1).find 2 = some 1 := by
  decide

/-- Claim C2 is a code bug: looking up a transaction endpoint missing
from the partition is not a fatal error.  `_process_transactions` on
`[(0, 5)]` with partition `{0: 0}` silently resolves endpoint 5 to
`None`, counts the transaction as cross-shard, and produces a normal
metrics record instead of failing. -/
theorem C2_missing_endpoint_not_fatal :
    partC2.find 5 = none ∧
    (processTransactions [(0, 5)] partC2).numCst = 1 ∧
    (processTransactions [(0, 5)] partC2).cstPct = 100 ∧
    (processTransactions [(0, 5)] partC2).avgLatency = LATENCY_CROSS_SHARD := by
  refine ⟨by decide, by decide, ?_, ?_⟩ <;>
    (norm_num [processTransactions, processFold, processTx, bumpLoad, FMap.find, partC2,
      LATENCY_INTRA_SHARD, LATENCY_CROSS_SHARD, EPOCH_DURATION_S]; simp)

/-- Claim C3: the metrics formulas.  `avg_latency` is the total charged
latency over the transaction count (0 when empty), `cst_ratio` is
`100 * cst_count / tx_count` (0 when empty), `throughput` is
`tx_count / EPOCH_DURATION_S`; a transaction is cross-shard and charged
`LATENCY_CROSS_SHARD` iff its endpoints map to different shards, else it
is charged `LATENCY_INTRA_SHARD`; and the two concrete scenarios from
the spec hold. -/
theorem C3_metrics (txs : List (ℕ × ℕ)) (part : FMap ℕ ℕ)
    (hcov : ∀ t ∈ txs, t.1 ∈ part.keys ∧ t.2 ∈ part.keys) :
    ((processTransactions txs part).avgLatency =
       if 0 < txs.length then latencySum txs part / (txs.length : ℚ) else 0) ∧
    ((processTransactions txs part).cstPct =
       if 0 < txs.length then 100 * (cstCount txs part : ℚ) / (txs.length : ℚ) else 0) ∧
    ((processTransactions txs part).throughput = (txs.length : ℚ) / (EPOCH_DURATION_S : ℚ)) ∧
    (cstCount txs part = txs.countP (fun t => decide (¬ part.val t.1 = part.val t.2))) ∧
    (latencySum txs part = (txs.map (fun t =>
       if ¬ part.val t.1 = part.val t.2 then LATENCY_CROSS_SHARD
       else LATENCY_INTRA_SHARD)).sum) ∧
    ((processTransactions [(1, 2), (1, 2), (3, 4)] partScen1).avgLatency =
       LATENCY_INTRA_SHARD) ∧
    ((processTransactions [(1, 2), (1, 2), (3, 4)] partScen1).cstPct = 0) ∧
    ((processTransactions [(1, 2), (1, 2), (3, 4)] partScen1).throughput =
       3 / (EPOCH_DURATION_S : ℚ)) ∧
    ((processTransactions [(1, 2)] partScen2).numCst = 1) ∧
    ((processTransactions [(1, 2)] partScen2).cstPct = 100) ∧
    ((processTransactions [(1, 2)] partScen2).avgLatency = LATENCY_CROSS_SHARD) := by
  have hfind : ∀ t ∈ txs,
      (part.find t.1 ≠ part.find t.2) = (¬ part.val t.1 = part.val t.2) := by
    intro t ht
    obtain ⟨h1, h2⟩ := hcov t ht
    unfold FMap.find
    simp [h1, h2]
  refine ⟨?_, ?_, rfl, ?_, ?_, ?_, ?_, ?_, by decide, ?_, ?_⟩
  case refine_5 | refine_6 | refine_7 | refine_8 | refine_9 =>
    norm_num [processTransactions, processFold, processTx, bumpLoad, FMap.find,
      partScen1, partScen2, LATENCY_INTRA_SHARD, LATENCY_CROSS_SHARD, EPOCH_DURATION_S]
  · show (if 0 < txs.length then (processFold part txs).totalLatency / (txs.length : ℚ) else 0) = _
    rw [processFold_latency]
  · show (if 0 < txs.length
        then (((processFold part txs).numCst : ℚ) / (txs.length : ℚ)) * 100 else 0) = _
    rw [processFold_numCst]
    by_cases h : 0 < txs.length
    · simp only [h, if_true]
      ring
    · simp [h]
  · unfold cstCount
    exact List.countP_congr
      (fun t ht => by simp only [decide_eq_true_eq]; exact iff_of_eq (hfind t ht))
  · unfold latencySum
    exact congrArg List.sum
      (List.map_congr_left (fun t ht => if_congr (iff_of_eq (hfind t ht)) rfl rfl))

/-- Witness for C3: the coverage hypothesis discharged on the first
spec scenario. -/
theorem C3_metrics_witness :
    (processTransactions [(1, 2), (1, 2), (3, 4)] partScen1).avgLatency =
      if 0 < ([(1, 2), (1, 2), (3, 4)] : List (ℕ × ℕ)).length
      then latencySum [(1, 2), (1, 2), (3, 4)] partScen1 /
        (([(1, 2), (1, 2), (3, 4)] : List (ℕ × ℕ)).length : ℚ)
      else 0 :=
  (C3_metrics [(1, 2), (1, 2), (3, 4)] partScen1 (by decide)).1

/-- Claim C8: the imbalance metric is always at least 1, and equals
exactly 1 whenever fewer than two shards carry nonzero load. -/
theorem C8_imbalance (txs : List (ℕ × ℕ)) (part : FMap ℕ ℕ) :
    1 ≤ (processTransactions txs part).imbalance ∧
    ((posLoadKeys (processFold part txs).shardLoad).card < 2 →
      (processTransactions txs part).imbalance = 1) :=
  ⟨one_le_imbalanceOf _, fun h => imbalanceOf_single _ h⟩

/-- Witness for C8: with a single loaded shard the imbalance is 1. -/
theorem C8_imbalance_witness :
    (processTransactions [(0, 1)] partLoad0).imbalance = 1 :=
  (C8_imbalance [(0, 1)] partLoad0).2 (by decide)

/-- Claim C9: the reconfiguration cost is within `[0, 100]`: the count
of migrated accounts is bounded by the old partition's key count, which
inside a simulation run never exceeds the number of accounts. -/
theorem C9_reconfig_cost (old new : FMap ℕ ℕ) (numAccounts : ℕ)
    (hsub : old.keys ⊆ Finset.range numAccounts) (hn : 0 < numAccounts) :
    0 ≤ reconfigCost old new numAccounts ∧ reconfigCost old new numAccounts ≤ 100 := by
  unfold reconfigCost
  have hm : (old.keys.filter (fun a => new.find a ≠ some (old.val a))).card ≤ numAccounts := by
    calc (old.keys.filter (fun a => new.find a ≠ some (old.val a))).card
        ≤ old.keys.card := Finset.card_filter_le _ _
      _ ≤ (Finset.range numAccounts).card := Finset.card_le_card hsub
      _ = numAccounts := Finset.card_range numAccounts
  constructor
  · have h0 : (0 : ℚ) ≤ ((old.keys.filter (fun a => new.find a ≠ some (old.val a))).card : ℚ) /
        (numAccounts : ℚ) := by positivity
    nlinarith
  · have h1 : ((old.keys.filter (fun a => new.find a ≠ some (old.val a))).card : ℚ) /
        (numAccounts : ℚ) ≤ 1 := by
      rw [div_le_one (by exact_mod_cast hn)]
      exact_mod_cast hm
    nlinarith

/-- Witness for C9 at concrete partitions. -/
theorem C9_reconfig_cost_witness :
    0 ≤ reconfigCost (staticPartition 2 5) partC2 5 ∧
    reconfigCost (staticPartition 2 5) partC2 5 ≤ 100 :=
  C9_reconfig_cost (staticPartition 2 5) partC2 5 (by decide) (by decide)

/-! ## Helper lemmas on the forecast state -/

theorem FMap.getD_of_empty {α β : Type} [DecidableEq α] (m : FMap α β)
    (h : m.keys = ∅) (k : α) (d : β) : m.getD k d = d := by
  unfold FMap.getD
  simp [h]

theorem FMap.getD_of_mem {α β : Type} [DecidableEq α] (m : FMap α β)
    {k : α} (h : k ∈ m.keys) (d : β) : m.getD k d = m.val k := by
  unfold FMap.getD
  simp [h]

theorem countP_replicate {α : Type} (p : α → Bool) (n : ℕ) (a : α) :
    (List.replicate n a).countP p = if p a then n else 0 := by
  induction n with
  | zero => simp
  | succ n ih =>
    rw [List.replicate_succ, List.countP_cons, ih]
    by_cases h : p a <;> simp [h]

theorem activeAccounts_nil : activeAccounts [] = ∅ := by
  simp [activeAccounts]

theorem emaUpdate_keys (hm : FMap ℕ ℚ) (txs : List (ℕ × ℕ)) :
    (emaUpdate hm txs).keys = hm.keys ∪ activeAccounts txs := rfl

theorem emaUpdate_val_active (hm : FMap ℕ ℚ) (txs : List (ℕ × ℕ)) {a : ℕ}
    (ha : a ∈ activeAccounts txs) :
    (emaUpdate hm txs).val a =
      EMA_ALPHA * (activity txs a : ℚ) + (1 - EMA_ALPHA) * hm.getD a 0 := by
  unfold emaUpdate
  simp [ha]

theorem rebuildPredicted_getD (hm : FMap ℕ ℚ) (a : ℕ) :
    (rebuildPredicted hm).getD a 0 =
      if a ∈ hm.keys ∧ PREDICTION_ACTIVITY_THRESHOLD < hm.val a then hm.val a else 0 := by
  unfold rebuildPredicted FMap.getD
  simp only [Finset.mem_filter]

theorem injectOracle_spike_getD (pm : FMap ℕ ℚ) {epoch a : ℕ}
    (he : epoch = SPIKE_EPOCH - 1) (ha : a ∈ NFT_CLUSTER_ACCOUNTS) :
    (injectOracle pm epoch).getD a 0 = pm.getD a 0 + spikeBoost := by
  unfold injectOracle
  rw [if_pos he]
  unfold FMap.getD
  simp [ha]

theorem injectOracle_noop (pm : FMap ℕ ℚ) {epoch : ℕ}
    (he : ¬ epoch = SPIKE_EPOCH - 1) : injectOracle pm epoch = pm := by
  unfold injectOracle
  rw [if_neg he]

/-- Along a history whose entries below `e ≤ 48` are all empty, the
forecast state stays empty through the epoch-`e` call. -/
theorem predictIter_empty (hist : HistMap) :
    ∀ e, e ≤ 48 → (∀ k, k < e → hist.getD k [] = []) →
      (predictIter hist e).historical.keys = ∅ ∧
      (predictIter hist e).predicted.keys = ∅ := by
  intro e
  induction e with
  | zero =>
    intro _ _
    constructor
    · show (predictStep initPState hist 0).historical.keys = ∅
      simp [predictStep, initPState]
    · show (predictStep initPState hist 0).predicted.keys = ∅
      have h0 : ¬ (0 : ℕ) = SPIKE_EPOCH - 1 := by decide
      simp [predictStep, injectOracle_noop _ h0, rebuildPredicted, initPState]
  | succ n ih =>
    intro hle hk
    have hn := ih (by omega) (fun k hkd => hk k (by omega))
    have htxs : hist.getD n [] = [] := hk n (by omega)
    have hkeys : (predictIter hist (n + 1)).historical.keys = ∅ := by
      show (predictStep (predictIter hist n) hist (n + 1)).historical.keys = ∅
      simp [predictStep, emaUpdate_keys, htxs, activeAccounts_nil, hn.1]
    refine ⟨hkeys, ?_⟩
    show (predictStep (predictIter hist n) hist (n + 1)).predicted.keys = ∅
    have hno : ¬ (n + 1) = SPIKE_EPOCH - 1 := by
      unfold SPIKE_EPOCH
      omega
    simp [predictStep, injectOracle_noop _ hno, rebuildPredicted, emaUpdate_keys,
      htxs, activeAccounts_nil, hn.1]

theorem FMap.getD_of_not_mem {α β : Type} [DecidableEq α] (m : FMap α β)
    {k : α} (h : k ∉ m.keys) (d : β) : m.getD k d = d := by
  unfold FMap.getD
  simp [h]

theorem histC4_getD_47 : histC4.getD 47 [] = List.replicate 500000 (1000, 2000) := by
  have h : (47 : ℕ) ∈ histC4.keys := by
    show (47 : ℕ) ∈ ({47, 48} : Finset ℕ)
    simp
  rw [FMap.getD_of_mem _ h]
  show (if (47 : ℕ) = 47 then List.replicate 500000 (1000, 2000)
    else if (47 : ℕ) = 48 then [(1000, 2000)] else []) = _
  rw [if_pos rfl]

theorem histC4_getD_48 : histC4.getD 48 [] = [(1000, 2000)] := by
  have h : (48 : ℕ) ∈ histC4.keys := by
    show (48 : ℕ) ∈ ({47, 48} : Finset ℕ)
    simp
  rw [FMap.getD_of_mem _ h]
  show (if (48 : ℕ) = 47 then List.replicate 500000 (1000, 2000)
    else if (48 : ℕ) = 48 then [(1000, 2000)] else []) = _
  rw [if_neg (by norm_num), if_pos rfl]

theorem histC4_below47 : ∀ k, k < 47 → histC4.getD k [] = [] := by
  intro k hk
  have h : k ∉ histC4.keys := by
    show k ∉ ({47, 48} : Finset ℕ)
    simp
    omega
  rw [FMap.getD_of_not_mem _ h]

theorem activity_replicate (n : ℕ) (x : ℕ × ℕ) (a : ℕ) :
    activity (List.replicate n x) a =
      (if x.1 = a then n else 0) + (if x.2 = a then n else 0) := by
  unfold activity
  rw [countP_replicate, countP_replicate]
  by_cases h1 : x.1 = a <;> by_cases h2 : x.2 = a <;> simp [h1, h2]

theorem activity_txs47 : activity (List.replicate 500000 (1000, 2000)) 1000 = 500000 := by
  rw [activity_replicate]
  norm_num

theorem active_txs47_mem : (1000 : ℕ) ∈ activeAccounts (List.replicate 500000 (1000, 2000)) := by
  unfold activeAccounts
  apply Finset.mem_union_left
  rw [List.map_replicate, List.toFinset_replicate_of_ne_zero (by norm_num)]
  simp

/-- The concrete epoch-48 forecast values on `histC4`. -/
theorem predictIter48_getD :
    (predictIter histC4 48).predicted.getD 1000 0 = 150000 ∧
    (predictIter histC4 48).historical.getD 1000 0 = 150000 := by
  have h47 := predictIter_empty histC4 47 (by norm_num) histC4_below47
  have hstep : predictIter histC4 48 = predictStep (predictIter histC4 47) histC4 48 := rfl
  have hvalE : (emaUpdate (predictIter histC4 47).historical
      (List.replicate 500000 (1000, 2000))).val 1000 = 150000 := by
    rw [emaUpdate_val_active _ _ active_txs47_mem, activity_txs47,
      FMap.getD_of_empty _ h47.1]
    norm_num [EMA_ALPHA]
  have hkeyE : (1000 : ℕ) ∈ (emaUpdate (predictIter histC4 47).historical
      (List.replicate 500000 (1000, 2000))).keys := by
    rw [emaUpdate_keys]
    exact Finset.mem_union_right _ active_txs47_mem
  have hm : (predictIter histC4 48).historical =
      emaUpdate (predictIter histC4 47).historical (List.replicate 500000 (1000, 2000)) := by
    rw [hstep]
    show (if 0 < 48 then emaUpdate (predictIter histC4 47).historical (histC4.getD 47 [])
      else (predictIter histC4 47).historical) = _
    rw [if_pos (by norm_num), histC4_getD_47]
  have hno : ¬ (48 : ℕ) = SPIKE_EPOCH - 1 := by decide
  have hpred : (predictIter histC4 48).predicted =
      rebuildPredicted (emaUpdate (predictIter histC4 47).historical
        (List.replicate 500000 (1000, 2000))) := by
    rw [hstep]
    show injectOracle (rebuildPredicted (if 0 < 48
      then emaUpdate (predictIter histC4 47).historical (histC4.getD 47 [])
      else (predictIter histC4 47).historical)) 48 = _
    rw [injectOracle_noop _ hno, if_pos (by norm_num), histC4_getD_47]
  constructor
  · rw [hpred, rebuildPredicted_getD,
      if_pos ⟨hkeyE, by rw [hvalE]; norm_num [PREDICTION_ACTIVITY_THRESHOLD]⟩, hvalE]
  · rw [hm, FMap.getD_of_mem _ hkeyE, hvalE]

/-- The concrete epoch-49 forecast value on `histC4`: the EMA decayed to
105000.3 and the oracle injection raises it only to 145000.3. -/
theorem predictIter49_getD :
    (predictIter histC4 49).predicted.getD 1000 0 = 1450003 / 10 := by
  obtain ⟨_, hhist48⟩ := predictIter48_getD
  have hstep : predictIter histC4 49 = predictStep (predictIter histC4 48) histC4 49 := rfl
  have hmem : (1000 : ℕ) ∈ activeAccounts [(1000, 2000)] := by decide
  have hvalE : (emaUpdate (predictIter histC4 48).historical [(1000, 2000)]).val 1000 =
      1050003 / 10 := by
    rw [emaUpdate_val_active _ _ hmem, hhist48]
    norm_num [EMA_ALPHA, activity]
  have hkeyE : (1000 : ℕ) ∈ (emaUpdate (predictIter histC4 48).historical
      [(1000, 2000)]).keys := by
    rw [emaUpdate_keys]
    exact Finset.mem_union_right _ hmem
  have hpred : (predictIter histC4 49).predicted =
      injectOracle (rebuildPredicted (emaUpdate (predictIter histC4 48).historical
        [(1000, 2000)])) 49 := by
    rw [hstep]
    show injectOracle (rebuildPredicted (if 0 < 49
      then emaUpdate (predictIter histC4 48).historical (histC4.getD 48 [])
      else (predictIter histC4 48).historical)) 49 = _
    rw [if_pos (by norm_num), histC4_getD_48]
  rw [hpred, injectOracle_spike_getD _ (by decide) (by decide), rebuildPredicted_getD,
    if_pos ⟨hkeyE, by rw [hvalE]; norm_num [PREDICTION_ACTIVITY_THRESHOLD]⟩, hvalE]
  norm_num [spikeBoost, SPIKE_TX_COUNT, NFT_CLUSTER_SIZE]

/-! ## Claim theorems, part 3 -/

/-- Claim C4 as stated is false: on `histC4`, NFT-cluster account 1000
has forecast 150000 after the epoch-48 `_predict` call, but only
145000.3 after the epoch-49 call — the EMA decay between the two calls
can outweigh the oracle injection, so the forecast does not strictly
increase for every workload history. -/
theorem C4_counterexample :
    1000 ∈ NFT_CLUSTER_ACCOUNTS ∧
    (predictIter histC4 49).predicted.getD 1000 0 <
      (predictIter histC4 48).predicted.getD 1000 0 := by
  refine ⟨by decide, ?_⟩
  rw [predictIter49_getD, predictIter48_getD.1]
  norm_num

/-- Claim C4 amended: at the epoch-49 `_predict` call the oracle
injection is additive — every NFT-cluster account's forecast equals its
pre-injection (step-2) forecast plus `SPIKE_TX_COUNT / NFT_CLUSTER_SIZE`
— and consequently the forecast strictly increases between the epoch-48
and epoch-49 calls whenever the epoch-48 forecast is smaller than the
epoch-49 pre-injection forecast plus that boost (for instance whenever
the account's forecast did not decay by 40000 or more between the
calls). -/
theorem C4_oracle_injection_amended (hist : HistMap) (a : ℕ)
    (ha : a ∈ NFT_CLUSTER_ACCOUNTS)
    (hlt : (predictIter hist 48).predicted.getD a 0 <
      (preInjectionForecast (predictIter hist 48) hist 49).getD a 0 + spikeBoost) :
    (predictIter hist 49).predicted.getD a 0 =
      (preInjectionForecast (predictIter hist 48) hist 49).getD a 0 + spikeBoost ∧
    (predictIter hist 48).predicted.getD a 0 <
      (predictIter hist 49).predicted.getD a 0 := by
  have hstep : predictIter hist 49 = predictStep (predictIter hist 48) hist 49 := rfl
  have heq : (predictIter hist 49).predicted.getD a 0 =
      (preInjectionForecast (predictIter hist 48) hist 49).getD a 0 + spikeBoost := by
    rw [hstep]
    show (injectOracle (rebuildPredicted _) 49).getD a 0 = _
    rw [injectOracle_spike_getD _ (by decide) ha]
    rfl
  exact ⟨heq, by rw [heq]; exact hlt⟩

/-- Witness for the amended C4 on the empty history: the epoch-48
forecast is 0, the epoch-49 pre-injection forecast is 0, and the
injection lifts the forecast to the (positive) spike boost. -/
theorem C4_oracle_injection_amended_witness :
    (predictIter histEmptyH 49).predicted.getD 1000 0 =
      (preInjectionForecast (predictIter histEmptyH 48) histEmptyH 49).getD 1000 0 +
        spikeBoost ∧
    (predictIter histEmptyH 48).predicted.getD 1000 0 <
      (predictIter histEmptyH 49).predicted.getD 1000 0 :=
  C4_oracle_injection_amended histEmptyH 1000 (by decide) (by
    have h48 := predictIter_empty histEmptyH 48 (by norm_num)
      (fun k _ => by simp [histEmptyH, FMap.getD])
    have hgd : histEmptyH.getD 48 [] = [] := by
      simp [histEmptyH, FMap.getD]
    have hpre : (preInjectionForecast (predictIter histEmptyH 48) histEmptyH 49).getD 1000 0 = 0 := by
      unfold preInjectionForecast
      rw [rebuildPredicted_getD]
      have hnm : (1000 : ℕ) ∉ (if 0 < 49
          then emaUpdate (predictIter histEmptyH 48).historical (histEmptyH.getD 48 [])
          else (predictIter histEmptyH 48).historical).keys := by
        rw [if_pos (by norm_num), hgd, emaUpdate_keys, activeAccounts_nil, h48.1]
        simp
      rw [if_neg (fun hc => hnm hc.1)]
    rw [hpre, FMap.getD_of_empty _ h48.2]
    norm_num [spikeBoost, SPIKE_TX_COUNT, NFT_CLUSTER_SIZE])

/-! ## Helper lemmas for history isolation (C5) -/

theorem agree_getD {h1 h2 : HistMap} {e : ℕ} (hag : AgreeBelow h1 h2 e)
    {k : ℕ} (hk : k < e) : h1.getD k [] = h2.getD k [] := by
  rw [FMap.getD_eq_find, FMap.getD_eq_find, hag k hk]

theorem buildGraph_agree {h1 h2 : HistMap} {e : ℕ} (hag : AgreeBelow h1 h2 e) :
    buildGraphFromHistory h1 e = buildGraphFromHistory h2 e := by
  unfold buildGraphFromHistory
  rcases Nat.eq_zero_or_pos e with he | he
  · simp [he]
  · have hne : ¬ e = 0 := by omega
    have hgd : h1.getD (e - 1) [] = h2.getD (e - 1) [] := agree_getD hag (by omega)
    by_cases hk1 : h1.keys = ∅ <;> by_cases hk2 : h2.keys = ∅
    · simp [hne, hk1, hk2]
    · have h1e : h1.getD (e - 1) [] = [] := by
        unfold FMap.getD
        simp [hk1]
      have h2e : h2.getD (e - 1) [] = [] := by rw [← hgd]; exact h1e
      simp [hne, hk1, hk2, h2e]
    · have h2e : h2.getD (e - 1) [] = [] := by
        unfold FMap.getD
        simp [hk2]
      have h1e : h1.getD (e - 1) [] = [] := by rw [hgd]; exact h2e
      simp [hne, hk1, hk2, h1e]
    · simp [hne, hk1, hk2, hgd]

theorem predictStep_agree (st : PState) {h1 h2 : HistMap} {e : ℕ}
    (hag : AgreeBelow h1 h2 e) : predictStep st h1 e = predictStep st h2 e := by
  unfold predictStep
  rcases Nat.eq_zero_or_pos e with he | he
  · simp [he]
  · rw [agree_getD hag (by omega)]

theorem buildPAG_agree (pm : FMap ℕ ℚ) {h1 h2 : HistMap} {e : ℕ}
    (hag : AgreeBelow h1 h2 e) : buildPAG pm h1 e = buildPAG pm h2 e := by
  unfold buildPAG
  rcases Nat.eq_zero_or_pos e with he | he
  · simp [he]
  · rw [agree_getD hag (by omega)]

/-- Claim C5: for every protocol variant, `reconfigure` at epoch `e`
returns the same partition (and, for ProShard, the same forecast state)
on any two histories agreeing on all entries with keys strictly below
`e`: the decision reads only `workload_history[epoch - 1]`, never the
entry for epoch `e` itself.  The community-detection routines are the
same opaque `detect` callback on both sides. -/
theorem C5_history_isolation (h1 h2 : HistMap) (e : ℕ) (hag : AgreeBelow h1 h2 e)
    (ns na : ℕ) (cur : FMap ℕ ℕ) (st : PState)
    (detN : Graph ℕ → List (List ℕ)) (detQ : Graph ℚ → List (List ℕ)) :
    staticReconfigure ns na cur h1 e = staticReconfigure ns na cur h2 e ∧
    reactiveReconfigure detN cur h1 e = reactiveReconfigure detN cur h2 e ∧
    proshardReconfigure detQ st cur h1 e = proshardReconfigure detQ st cur h2 e := by
  refine ⟨rfl, ?_, ?_⟩
  · unfold reactiveReconfigure
    rw [buildGraph_agree hag]
  · unfold proshardReconfigure
    simp only [predictStep_agree st hag]
    simp only [buildPAG_agree (predictStep st h2 e).predicted hag]

/-- Witness for C5: the empty history and `histB5` (whose only entry is
at epoch 5) agree below epoch 3, and the reactive reconfigure returns
the same partition on both. -/
theorem C5_history_isolation_witness :
    reactiveReconfigure (fun _ => []) partC2 histEmptyH 3 =
      reactiveReconfigure (fun _ => []) partC2 histB5 3 :=
  (C5_history_isolation histEmptyH histB5 3
    (by
      intro k hk
      have h1 : k ∉ histEmptyH.keys := by simp [histEmptyH]
      have h2 : k ∉ histB5.keys := by
        show k ∉ ({5} : Finset ℕ)
        simp
        omega
      unfold FMap.find
      simp [h1, h2])
    1 1 partC2 initPState (fun _ => []) (fun _ => [])).2.1

/-! ## Helper lemmas on the Predictive Affinity Graph (C6) -/

theorem buildHW_keys_aux (txs : List (ℕ × ℕ)) (m : FMap (ℕ × ℕ) ℕ) :
    (txs.foldl (fun m t => bumpPairW m (normPair t)) m).keys =
      m.keys ∪ (txs.map normPair).toFinset := by
  induction txs generalizing m with
  | nil => simp
  | cons t ts ih =>
    rw [List.foldl_cons, ih]
    show (bumpPairW m (normPair t)).keys ∪ _ = _
    unfold bumpPairW
    rw [List.map_cons, List.toFinset_cons]
    show insert (normPair t) m.keys ∪ (ts.map normPair).toFinset = _
    rw [Finset.insert_union, Finset.union_insert]

theorem buildHW_keys (txs : List (ℕ × ℕ)) :
    (buildHW txs).keys = (txs.map normPair).toFinset := by
  unfold buildHW
  rw [buildHW_keys_aux]
  simp

theorem bumpPairW_getD (m : FMap (ℕ × ℕ) ℕ) (q p : ℕ × ℕ) :
    (bumpPairW m q).getD p 0 = m.getD p 0 + if q = p then 1 else 0 := by
  unfold bumpPairW FMap.getD
  by_cases h : q = p
  · subst h
    simp
  · have h' : ¬ p = q := fun hh => h hh.symm
    by_cases hm : p ∈ m.keys <;> simp [h, h', hm]

theorem buildHW_getD_aux (txs : List (ℕ × ℕ)) (m : FMap (ℕ × ℕ) ℕ) (p : ℕ × ℕ) :
    (txs.foldl (fun m t => bumpPairW m (normPair t)) m).getD p 0 =
      m.getD p 0 + txs.countP (fun t => decide (normPair t = p)) := by
  induction txs generalizing m with
  | nil => simp
  | cons t ts ih =>
    rw [List.foldl_cons, ih, bumpPairW_getD, List.countP_cons]
    by_cases h : normPair t = p <;> simp [h] <;> omega

theorem buildHW_getD (txs : List (ℕ × ℕ)) (u v : ℕ) :
    (buildHW txs).getD (normPair (u, v)) 0 = pairCount txs u v := by
  unfold buildHW
  rw [buildHW_getD_aux]
  have hinit : (⟨∅, fun _ => 0⟩ : FMap (ℕ × ℕ) ℕ).getD (normPair (u, v)) 0 = 0 := by
    unfold FMap.getD
    simp
  rw [hinit, Nat.zero_add]
  unfold pairCount
  exact List.countP_congr (fun t ht => by
    simp only [decide_eq_true_eq]
    exact (pair_pred_iff_normPair t u v).symm)

theorem pairCount_pos_iff (txs : List (ℕ × ℕ)) (u v : ℕ) :
    0 < pairCount txs u v ↔ normPair (u, v) ∈ (txs.map normPair).toFinset := by
  unfold pairCount
  rw [List.countP_pos]
  simp only [List.mem_toFinset, List.mem_map, decide_eq_true_eq]
  constructor
  · rintro ⟨t, ht, hp⟩
    exact ⟨t, ht, (pair_pred_iff_normPair t u v).mp hp⟩
  · rintro ⟨t, ht, hp⟩
    exact ⟨t, ht, (pair_pred_iff_normPair t u v).mpr hp⟩

theorem buildHW_pos (txs : List (ℕ × ℕ)) (p : ℕ × ℕ)
    (hp : p ∈ (buildHW txs).keys) : 0 < (buildHW txs).getD p 0 := by
  rw [buildHW_keys] at hp
  obtain ⟨t, ht, rfl⟩ := List.mem_map.mp (List.mem_toFinset.mp hp)
  unfold buildHW
  rw [buildHW_getD_aux]
  have : 0 < txs.countP (fun s => decide (normPair s = normPair t)) :=
    List.countP_pos.mpr ⟨t, ht, by simp⟩
  omega

theorem normPair_idem (t : ℕ × ℕ) : normPair (normPair t) = normPair t := by
  unfold normPair
  simp only [Prod.mk.injEq]
  omega

theorem pagMaxH_eq (txs : List (ℕ × ℕ)) (h : (buildHW txs).keys.Nonempty) :
    pagMaxH (buildHW txs) = maxPairCount txs := by
  unfold pagMaxH maxPairCount
  rw [if_pos h]
  refine Finset.sup_congr (buildHW_keys txs) (fun p hp => ?_)
  have hkey : p ∈ (buildHW txs).keys := by
    rw [buildHW_keys]
    exact hp
  rw [← FMap.getD_of_mem _ hkey 0]
  obtain ⟨t, ht, rfl⟩ := List.mem_map.mp (List.mem_toFinset.mp hp)
  have hsplit : normPair ((normPair t).1, (normPair t).2) = normPair t := by
    rw [show ((normPair t).1, (normPair t).2) = normPair t from rfl, normPair_idem]
  have hg := buildHW_getD txs (normPair t).1 (normPair t).2
  rw [hsplit] at hg
  exact hg

theorem pagMaxP_pos (pm : FMap ℕ ℚ) (hpos : ∀ a ∈ pm.keys, 0 < pm.val a) :
    0 < pagMaxP pm := by
  unfold pagMaxP
  split
  · rename_i h
    obtain ⟨b, hb, hsup⟩ := Finset.exists_mem_eq_sup' h pm.val
    rw [hsup]
    exact pow_pos (hpos b hb) 2
  · exact one_pos

theorem pm_getD_nonneg (pm : FMap ℕ ℚ) (hpos : ∀ a ∈ pm.keys, 0 < pm.val a)
    (a : ℕ) : 0 ≤ pm.getD a 0 := by
  unfold FMap.getD
  by_cases h : a ∈ pm.keys
  · simp only [h, if_true]
    exact (hpos a h).le
  · simp [h]

theorem pagWeight_pos (pm : FMap ℕ ℚ) (txs : List (ℕ × ℕ)) (p : ℕ × ℕ)
    (hpos : ∀ a ∈ pm.keys, 0 < pm.val a) (hm : p ∈ (buildHW txs).keys) :
    0 < pagWeight pm (buildHW txs) p := by
  unfold pagWeight
  have h1 : (0 : ℚ) < ((buildHW txs).getD p 0 : ℚ) := by
    exact_mod_cast buildHW_pos txs p hm
  have hmaxH : (0 : ℚ) < (pagMaxH (buildHW txs) : ℚ) := by
    have : 0 < pagMaxH (buildHW txs) := by
      unfold pagMaxH
      rw [if_pos ⟨p, hm⟩]
      calc 0 < (buildHW txs).getD p 0 := buildHW_pos txs p hm
        _ = (buildHW txs).val p := FMap.getD_of_mem _ hm 0
        _ ≤ (buildHW txs).keys.sup (buildHW txs).val := Finset.le_sup hm
    exact_mod_cast this
  have ha : 0 < PAG_ALPHA * (((buildHW txs).getD p 0 : ℚ) / (pagMaxH (buildHW txs) : ℚ)) :=
    mul_pos (by norm_num [PAG_ALPHA]) (div_pos h1 hmaxH)
  have hb : 0 ≤ PAG_BETA * ((pm.getD p.1 0 * pm.getD p.2 0) / pagMaxP pm) :=
    mul_nonneg (by norm_num [PAG_BETA])
      (div_nonneg (mul_nonneg (pm_getD_nonneg pm hpos p.1) (pm_getD_nonneg pm hpos p.2))
        (pagMaxP_pos pm hpos).le)
  have hc : (0 : ℚ) ≤ PAG_GAMMA *
      (if p.1 ∈ NFT_CLUSTER_ACCOUNTS ∧ p.2 ∈ NFT_CLUSTER_ACCOUNTS then 1 else 0) := by
    refine mul_nonneg (by norm_num [PAG_GAMMA]) ?_
    split <;> norm_num
  exact add_pos_of_pos_of_nonneg (add_pos_of_pos_of_nonneg ha hb) hc

theorem normPair_le {u v : ℕ} (h : u ≤ v) : normPair (u, v) = (u, v) := by
  unfold normPair
  simp only [Prod.mk.injEq]
  omega

theorem normPair_ge {u v : ℕ} (h : v ≤ u) : normPair (u, v) = (v, u) := by
  unfold normPair
  simp only [Prod.mk.injEq]
  omega

/-- Claim C6: for every epoch `e > 0` and history, the PAG built by
ProShard (from any forecast state with positive scores, as `_predict`
produces) has edge set exactly the unordered pairs transacting in epoch
`e - 1` — the positive-weight filter drops no pair — and each edge's
weight is `alpha*H + beta*P + gamma*S` with `alpha, beta, gamma` the
configured 0.2/0.5/0.3, `H` the pair's co-transaction count over the
epoch's maximum pairwise count, `P` the product of the endpoints'
forecast scores over the square of the maximum forecast score, and `S`
1 iff both endpoints are NFT-cluster accounts. -/
theorem C6_pag_structure (hist : HistMap) (epoch u v : ℕ) (pm : FMap ℕ ℚ)
    (he : 0 < epoch) (hpos : ∀ a ∈ pm.keys, 0 < pm.val a) :
    ((buildPAG pm hist epoch).hasEdge u v ↔
      0 < pairCount (hist.getD (epoch - 1) []) u v) ∧
    (0 < pairCount (hist.getD (epoch - 1) []) u v →
      (buildPAG pm hist epoch).getW u v =
        PAG_ALPHA * ((pairCount (hist.getD (epoch - 1) []) u v : ℚ) /
          (maxPairCount (hist.getD (epoch - 1) []) : ℚ)) +
        PAG_BETA * ((pm.getD u 0 * pm.getD v 0) / pagMaxP pm) +
        PAG_GAMMA * (if u ∈ NFT_CLUSTER_ACCOUNTS ∧ v ∈ NFT_CLUSTER_ACCOUNTS
          then 1 else 0)) ∧
    (∀ h : pm.keys.Nonempty, pagMaxP pm = (pm.keys.sup' h pm.val) ^ 2) := by
  have hpag : buildPAG pm hist epoch =
      ⟨(buildHW (hist.getD (epoch - 1) [])).keys.filter
        (fun p => 0 < pagWeight pm (buildHW (hist.getD (epoch - 1) [])) p),
       pagWeight pm (buildHW (hist.getD (epoch - 1) []))⟩ := by
    unfold buildPAG
    rw [if_pos he]
  have hmemiff : normPair (u, v) ∈ (buildHW (hist.getD (epoch - 1) [])).keys ↔
      0 < pairCount (hist.getD (epoch - 1) []) u v := by
    rw [buildHW_keys]
    exact (pairCount_pos_iff _ u v).symm
  refine ⟨?_, ?_, fun h => by unfold pagMaxP; rw [dif_pos h]⟩
  · unfold Graph.hasEdge
    rw [hpag]
    constructor
    · intro hmem
      exact hmemiff.mp (Finset.mem_filter.mp hmem).1
    · intro hpc
      exact Finset.mem_filter.mpr ⟨hmemiff.mpr hpc,
        pagWeight_pos pm _ _ hpos (hmemiff.mpr hpc)⟩
  · intro hpc
    have hmem := hmemiff.mpr hpc
    have hW : (buildPAG pm hist epoch).getW u v =
        pagWeight pm (buildHW (hist.getD (epoch - 1) [])) (normPair (u, v)) := by
      rw [hpag]
      unfold Graph.getW
      rw [if_pos (Finset.mem_filter.mpr ⟨hmem, pagWeight_pos pm _ _ hpos hmem⟩)]
    rw [hW]
    unfold pagWeight
    rw [buildHW_getD, pagMaxH_eq _ ⟨_, hmem⟩]
    rcases le_total u v with hle | hle
    · rw [normPair_le hle]
    · rw [normPair_ge hle]
      dsimp only
      rw [mul_comm (pm.getD v 0) (pm.getD u 0), if_congr and_comm rfl rfl]

/-- Witness for C6: epoch 1, a single transaction between the NFT
accounts 1000 and 1001, forecast state `predC6` with both scores 60. -/
theorem C6_pag_structure_witness :
    (buildPAG predC6 histC6 1).hasEdge 1000 1001 ∧
    (buildPAG predC6 histC6 1).getW 1000 1001 =
      PAG_ALPHA * ((pairCount (histC6.getD 0 []) 1000 1001 : ℚ) /
        (maxPairCount (histC6.getD 0 []) : ℚ)) +
      PAG_BETA * ((predC6.getD 1000 0 * predC6.getD 1001 0) / pagMaxP predC6) +
      PAG_GAMMA * (if 1000 ∈ NFT_CLUSTER_ACCOUNTS ∧ 1001 ∈ NFT_CLUSTER_ACCOUNTS
        then 1 else 0) := by
  have h := C6_pag_structure histC6 1 1000 1001 predC6 (by norm_num)
    (fun a _ => by norm_num [predC6])
  have hpc : 0 < pairCount (histC6.getD 0 []) 1000 1001 := by decide
  exact ⟨h.1.mpr hpc, h.2.1 hpc⟩

end ProShardSim
